import Mathlib

/-!
Verification of the symtseries SAX engine (symbolic aggregate approximation of
time series) against its natural-language specification.

The repository ships the public header `src/include/symtseries.h` (declarations
and documented semantics of the core `sts_*` operations) and the Lua binding
`src/lua/lua_sax.c` (parameter validation, operand dispatch, and the glue that
calls into the core).  The core implementation file itself is not present under
`src/`, so the bodies of the core operations below are modelled from the
specification; definitions taken directly from code present in `src/` are
marked as such.

Floating-point doubles are embedded as exact rationals.  Square roots are kept
out of the executable definitions by comparing squares (every comparison
`x <= d / sqrt v` is decided by the equivalent rational comparison); the
real-valued distance statements are phrased with `Real.sqrt` applied to the
rational squared quantities.
-/

/-- Maximum supported cardinality, from `src/include/symtseries.h` line 15. -/
def STS_MAX_CARDINALITY : ℕ := 16

/-- Numerical tolerance for treating a series as constant,
from `src/include/symtseries.h` line 16 (`1e-2`). -/
def STS_STAT_EPS : ℚ := 1 / 100

/-- Modelled from the spec: the per-cardinality breakpoint tables of Gaussian
quantile breakpoints (`BreakpointTable`, missing from `src/`).  For each
cardinality `c` in `[2,16]` the table holds the `c-1` ascending quantiles
`Phi^-1(k/c)` of the standard normal distribution, here as fixed rational
constants (4 decimal places); for any other argument the table is empty. -/
def breakpoints (c : ℕ) : List ℚ :=
  match c with
  | 2 => [0]
  | 3 => [-4307/10000, 4307/10000]
  | 4 => [-6745/10000, 0, 6745/10000]
  | 5 => [-8416/10000, -2533/10000, 2533/10000, 8416/10000]
  | 6 => [-9674/10000, -4307/10000, 0, 4307/10000, 9674/10000]
  | 7 => [-10676/10000, -5659/10000, -1800/10000, 1800/10000, 5659/10000,
          10676/10000]
  | 8 => [-11503/10000, -6745/10000, -3186/10000, 0, 3186/10000, 6745/10000,
          11503/10000]
  | 9 => [-12206/10000, -7647/10000, -4307/10000, -1397/10000, 1397/10000,
          4307/10000, 7647/10000, 12206/10000]
  | 10 => [-12816/10000, -8416/10000, -5244/10000, -2533/10000, 0,
           2533/10000, 5244/10000, 8416/10000, 12816/10000]
  | 11 => [-13352/10000, -9085/10000, -6046/10000, -3488/10000, -1142/10000,
           1142/10000, 3488/10000, 6046/10000, 9085/10000, 13352/10000]
  | 12 => [-13830/10000, -9674/10000, -6745/10000, -4307/10000, -2104/10000,
           0, 2104/10000, 4307/10000, 6745/10000, 9674/10000, 13830/10000]
  | 13 => [-14261/10000, -10201/10000, -7363/10000, -5024/10000, -2934/10000,
           -966/10000, 966/10000, 2934/10000, 5024/10000, 7363/10000,
           10201/10000, 14261/10000]
  | 14 => [-14652/10000, -10676/10000, -7916/10000, -5659/10000, -3661/10000,
           -1800/10000, 0, 1800/10000, 3661/10000, 5659/10000, 7916/10000,
           10676/10000, 14652/10000]
  | 15 => [-15011/10000, -11108/10000, -8416/10000, -6229/10000, -4307/10000,
           -2533/10000, -837/10000, 837/10000, 2533/10000, 4307/10000,
           6229/10000, 8416/10000, 11108/10000, 15011/10000]
  | 16 => [-15341/10000, -11503/10000, -8871/10000, -6745/10000, -4888/10000,
           -3186/10000, -1573/10000, 0, 1573/10000, 3186/10000, 4888/10000,
           6745/10000, 8871/10000, 11503/10000, 15341/10000]
  | _ => []

/-- The symbolic word (`struct sts_word` from `src/include/symtseries.h`):
number of summarized raw values, symbol count, cardinality, and the ordered
symbol sequence. -/
structure Word where
  n_values : ℕ
  w : ℕ
  c : ℕ
  symbols : List ℕ
  deriving DecidableEq, Repr

/-- A cardinality is supported when it lies in `[2, 16]`. -/
def supportedCard (c : ℕ) : Bool :=
  decide (1 < c) && decide (c ≤ STS_MAX_CARDINALITY)

/-- Rational decision procedure for the real comparison `b ≤ d / sqrt v`
(for `v > 0`), used so that symbol assignment stays executable: both sides are
compared through their squares, with sign analysis. -/
def betaLeDiv (b d v : ℚ) : Bool :=
  if 0 ≤ b then decide (0 ≤ d) && decide (b ^ 2 * v ≤ d ^ 2)
  else decide (0 ≤ d) || decide (d ^ 2 ≤ b ^ 2 * v)

/-- Modelled from the spec: `symbol_for` (missing from `src/`) returns the
count of breakpoints less than or equal to the normalized value.  Here the
normalized value `d / sqrt v` is represented by the pair `(d, v)` of the
(rational) deviation `d` and the (rational) population variance `v`, and each
comparison is decided by `betaLeDiv`. -/
def symbol_for (d v : ℚ) (c : ℕ) : ℕ :=
  (breakpoints c).countP (fun b => betaLeDiv b d v)

/-- Arithmetic mean of a rational list (sum divided by length). -/
def sts_mean (xs : List ℚ) : ℚ := xs.sum / (xs.length : ℚ)

/-- Population variance of a rational list: mean of squared deviations. -/
def sts_variance (xs : List ℚ) : ℚ :=
  ((xs.map (fun x => x - sts_mean xs)).map (fun d => d ^ 2)).sum /
    (xs.length : ℚ)

/-- Means of the `w` contiguous segments of length `m` of a list. -/
def sts_segment_means (dv : List ℚ) (w m : ℕ) : List ℚ :=
  (List.range w).map (fun i => ((dv.drop (i * m)).take m).sum / (m : ℚ))

/-- Modelled from the spec: `sts_to_sax` (declared in
`src/include/symtseries.h` lines 62-69, body missing from `src/`).  Checks the
encoder preconditions (`n > 1`, `w > 1`, `c` in `(1,16]`, `w` divides `n`),
computes mean and population variance, and either assigns every segment the
mid-alphabet symbol `c / 2` when the standard deviation is below
`STS_STAT_EPS` (the test `std < eps` is encoded as `variance < eps ^ 2`), or
assigns each segment mean its breakpoint-table symbol. -/
def sts_to_sax (series : List ℚ) (w c : ℕ) : Option Word :=
  let n := series.length
  if 1 < n ∧ 1 < w ∧ 1 < c ∧ c ≤ STS_MAX_CARDINALITY ∧ n % w = 0 then
    let mu := sts_mean series
    let v := sts_variance series
    let syms :=
      if v < STS_STAT_EPS ^ 2 then List.replicate w (c / 2)
      else (sts_segment_means (series.map (fun x => x - mu)) w (n / w)).map
        (fun d => symbol_for d v c)
    some ⟨n, w, c, syms⟩
  else none

/-- Modelled from the spec: `region_distance` (missing from `src/`), in the
multi-resolution form of sections 4.5 and 9: a symbol at its cardinality
denotes the region of normalized values between its neighbouring breakpoints
of its own table (unbounded at the two alphabet ends), and the distance of
two symbols is the gap between their regions — the minimum possible
normalized distance between any two values that could produce them.  The gap
is zero when the regions overlap or touch; otherwise it is the breakpoint
just below the higher region minus the breakpoint just above the lower
region.  At equal cardinalities this is exactly the section 4.2
`region_distance`: zero for equal or adjacent symbols, else the stated
breakpoint gap. -/
def sts_dist (sa ca sb cb : ℕ) : ℚ :=
  if 1 ≤ sb ∧ sa + 1 < ca ∧
      (breakpoints ca).getD sa 0 < (breakpoints cb).getD (sb - 1) 0 then
    (breakpoints cb).getD (sb - 1) 0 - (breakpoints ca).getD sa 0
  else if 1 ≤ sa ∧ sb + 1 < cb ∧
      (breakpoints cb).getD sb 0 < (breakpoints ca).getD (sa - 1) 0 then
    (breakpoints ca).getD (sa - 1) 0 - (breakpoints cb).getD sb 0
  else 0

/-- Modelled from the spec: the square of `sts_mindist` (declared in
`src/include/symtseries.h` lines 71-77, body missing from `src/`).  The
undefined/NaN result is `none`: it is returned exactly when the symbol counts
differ or either cardinality is unsupported.  Otherwise, per the spec formula,
the squared distance is `a.n_values / a.w` times the sum of squared region
distances of the paired symbols, each symbol interpreted as its covered
region at its own word's cardinality (the section 4.5/9 multi-resolution
policy; for equal cardinalities this is the plain single-table formula).
The value `sts_mindist` returns in the defined case is the square root of
this rational. -/
def sts_mindist_sq (a b : Word) : Option ℚ :=
  if a.w = b.w ∧ supportedCard a.c = true ∧ supportedCard b.c = true then
    some (((a.n_values : ℚ) / (a.w : ℚ)) *
      ((a.symbols.zip b.symbols).map
        (fun p => (sts_dist p.1 a.c p.2 b.c) ^ 2)).sum)
  else none

/-- Modelled from the spec: `sts_words_equal` (missing from `src/`): true iff
symbol count, cardinality, source length and the symbol sequences all agree. -/
def sts_words_equal (a b : Word) : Bool :=
  decide (a.n_values = b.n_values) && decide (a.w = b.w) &&
    decide (a.c = b.c) && decide (a.symbols = b.symbols)

/-- The fixed symbol alphabet of the string codec (lowercase letters). -/
def saxAlphabet : List Char :=
  ['a', 'b', 'c', 'd', 'e', 'f', 'g', 'h', 'i', 'j', 'k', 'l', 'm',
   'n', 'o', 'p', 'q', 'r', 's', 't', 'u', 'v', 'w', 'x', 'y', 'z']

/-- Modelled from the spec: `sts_word_to_sax_string` (missing from `src/`):
maps each symbol to the alphabet character at its index, failing if any symbol
falls outside the representable alphabet range. -/
def sts_word_to_sax_string (a : Word) : Option (List Char) :=
  if a.symbols.all (fun s => s < saxAlphabet.length) then
    some (a.symbols.map (fun s => saxAlphabet.getD s 'a'))
  else none

/-- Modelled from the spec: `sts_from_sax_string` (missing from `src/`):
requires string length above one (checked by `sax_from_string` in
`src/lua/lua_sax.c` line 251) and a supported cardinality, maps each character
back to its alphabet index, failing on characters outside the alphabet or
indices at or above the cardinality; the produced word's `n_values` is set to
its symbol count. -/
def sts_from_sax_string (s : List Char) (c : ℕ) : Option Word :=
  let idxs := s.map (fun ch => saxAlphabet.indexOf ch)
  if 1 < s.length ∧ supportedCard c = true ∧
      (s.all (fun ch => saxAlphabet.contains ch)) = true ∧
      idxs.all (fun i => i < c) then
    some ⟨s.length, s.length, c, idxs⟩
  else none

/-- The window (`struct sts_window` from `src/include/symtseries.h` together
with its ring buffer): the target capacity `n`, the encoding parameters `w`
and `c`, and the buffered samples in arrival order (oldest first). -/
structure Window where
  n : ℕ
  w : ℕ
  c : ℕ
  buf : List ℚ
  deriving DecidableEq, Repr

/-- A freshly constructed window with an empty buffer. -/
def freshWindow (n w c : ℕ) : Window := ⟨n, w, c, []⟩

/-- Parameter validation of the Lua binding, from `check_nwc` in
`src/lua/lua_sax.c` lines 26-35: the four `luaL_argcheck` conditions on the C
`int` arguments `n`, `w`, `c`. -/
def check_nwc (n w c : ℤ) : Bool :=
  decide (1 < n) && decide (n ≤ 4096) && decide (1 < w) && decide (w ≤ 2048) &&
    decide (n % w = 0) && decide (1 < c) && decide (c ≤ 16)

/-- Window construction of the Lua binding, from `sax_new_window` in
`src/lua/lua_sax.c` lines 102-117: validates the parameters with `check_nwc`
and allocates an empty window (allocation failure is not modelled). -/
def sax_new_window (n w c : ℤ) : Option Window :=
  if check_nwc n w c then some (freshWindow n.toNat w.toNat c.toNat) else none

/-- Modelled from the spec: `sts_append_value` (declared in
`src/include/symtseries.h` lines 50-60, body missing from `src/`).  If the
buffer already holds `n` values the oldest is dropped, the value is appended,
and a word over the buffer contents is returned exactly when the buffer now
holds `n` values. -/
def sts_append_value (win : Window) (x : ℚ) : Window × Option Word :=
  let buf0 := if win.buf.length = win.n then win.buf.drop 1 else win.buf
  let buf1 := buf0 ++ [x]
  let win1 : Window := ⟨win.n, win.w, win.c, buf1⟩
  (win1, if buf1.length = win.n then sts_to_sax buf1 win.w win.c else none)

/-- Modelled from the spec: `sts_window_reset` (declared in
`src/include/symtseries.h` lines 91-96): clears the buffer. -/
def sts_window_reset (win : Window) : Window := ⟨win.n, win.w, win.c, []⟩

/-- Reference semantics of bulk appending, following the spec's words:
`append_value` is called once per element in order and only the result of the
final call is kept (`none` when there is no call). -/
def append_value_iterated (win : Window) (vals : List ℚ) :
    Window × Option Word :=
  vals.foldl (fun p x => sts_append_value p.1 x) (win, none)

/-- Modelled from the spec: `sts_append_array` (called by `sax_add` in
`src/lua/lua_sax.c` line 169, body missing from `src/`), as the efficient bulk
implementation: the buffer is replaced by the last `n` entries of the old
buffer followed by the new values, and a word is computed once over the final
buffer contents when the batch is nonempty and the buffer is full. -/
def sts_append_array (win : Window) (vals : List ℚ) : Window × Option Word :=
  let total := win.buf ++ vals
  let buf1 := total.drop (total.length - win.n)
  let win1 : Window := ⟨win.n, win.w, win.c, buf1⟩
  (win1,
    if vals ≠ [] ∧ buf1.length = win.n then sts_to_sax buf1 win.w win.c
    else none)

/-- Spec invariant of a well-formed word (data model, section 3): every symbol
below the cardinality, a supported cardinality, at least one symbol, and the
symbol sequence of the declared length. -/
def wellFormedWord (a : Word) : Prop :=
  a.symbols.length = a.w ∧ (∀ s ∈ a.symbols, s < a.c) ∧
    1 < a.c ∧ a.c ≤ STS_MAX_CARDINALITY ∧ 1 ≤ a.w

/-- Placeholder word used as the lookup default of the word store. -/
def defaultWord : Word := ⟨0, 0, 0, []⟩

/-- A Lua-side window object reduced to what the binding reads through it: the
address of its cached current word (`window->current_word` in
`src/lua/lua_sax.c`).  Word values live in a store (a list of words indexed by
address), making address identity versus duplication observable. -/
structure LuaWindow where
  current_word : ℕ

/-- An argument of the Lua binding operations that accept either a word or a
window (`sax_gettype` dispatch in `src/lua/lua_sax.c` lines 44-67). -/
inductive SaxOperand where
  | word (addr : ℕ)
  | window (win : LuaWindow)

/-- Operand resolution, from `check_word_or_window` in `src/lua/lua_sax.c`
lines 69-79: a word operand is used as given, a window operand resolves to
the address of the window's live cached current word (no copy is made). -/
def check_word_or_window (o : SaxOperand) : ℕ :=
  match o with
  | .word a => a
  | .window win => win.current_word

/-- Modelled from the spec: `sts_dup_word` (missing from `src/`): allocates a
fresh address holding a copy of the word at the given address. -/
def sts_dup_word (store : List Word) (addr : ℕ) : List Word × ℕ :=
  (store ++ [store.getD addr defaultWord], store.length)

/-- Word retrieval from a window, from `sax_window_get_word` in
`src/lua/lua_sax.c` lines 218-224: hands the caller an independently
duplicated copy of the cached word. -/
def sax_window_get_word (store : List Word) (win : LuaWindow) :
    List Word × ℕ :=
  sts_dup_word store win.current_word

/-- The binding's distance operation, from `sax_mindist` in
`src/lua/lua_sax.c` lines 176-193: resolves both operands through
`check_word_or_window` and computes the distance on the stored words; the
store is not modified. -/
def sax_mindist_lua (store : List Word) (o1 o2 : SaxOperand) :
    List Word × Option ℚ :=
  (store, sts_mindist_sq (store.getD (check_word_or_window o1) defaultWord)
    (store.getD (check_word_or_window o2) defaultWord))

/-- The binding's equality operation, from `sax_equal` in `src/lua/lua_sax.c`
lines 209-216. -/
def sax_equal_lua (store : List Word) (o1 o2 : SaxOperand) :
    List Word × Bool :=
  (store, sts_words_equal (store.getD (check_word_or_window o1) defaultWord)
    (store.getD (check_word_or_window o2) defaultWord))

/-- The binding's string conversion, from `sax_to_string` in
`src/lua/lua_sax.c` lines 195-207. -/
def sax_to_string_lua (store : List Word) (o : SaxOperand) :
    List Word × Option (List Char) :=
  (store, sts_word_to_sax_string (store.getD (check_word_or_window o) defaultWord))

/-- Statement pattern of the mindist lower-bound contract for two raw series
encoded with the same symbol count and any (possibly different) cardinalities:
the distance value (the square root of the rational squared distance) is at
most the true Euclidean distance between the z-normalized raw series. -/
def MindistLeTrueDist (xs ys : List ℚ) (w cx cy : ℕ) : Prop :=
  ∀ a b : Word, sts_to_sax xs w cx = some a → sts_to_sax ys w cy = some b →
    Real.sqrt (((sts_mindist_sq a b).getD 0 : ℚ) : ℝ) ≤
      Real.sqrt (∑ j ∈ Finset.range xs.length,
        (((xs.getD j 0 - sts_mean xs : ℚ) : ℝ) /
            Real.sqrt ((sts_variance xs : ℚ) : ℝ) -
         ((ys.getD j 0 - sts_mean ys : ℚ) : ℝ) /
            Real.sqrt ((sts_variance ys : ℚ) : ℝ)) ^ 2)

/-- Population variance of a constant list is zero. -/
theorem sts_variance_replicate (n : ℕ) (x : ℚ) :
    sts_variance (List.replicate n x) = 0 := by
  rcases Nat.eq_zero_or_pos n with hn | hn
  · subst hn; simp [sts_variance, sts_mean]
  · have hne : ((List.replicate n x).length : ℚ) ≠ 0 := by
      simp [Nat.pos_iff_ne_zero.mp hn]
    have hm : sts_mean (List.replicate n x) = x := by
      unfold sts_mean
      rw [List.sum_replicate, nsmul_eq_mul, List.length_replicate]
      field_simp
    unfold sts_variance
    rw [hm, List.map_replicate, List.map_replicate]
    simp

/-- C3: window construction with parameters `(n, w, c)` succeeds if and only
if `n` lies in `(1, 4096]`, `w` lies in `(1, 2048]`, `w` divides `n`, and `c`
lies in `(1, 16]` (allocation failure is outside the model); outside those
ranges `check_nwc` raises `InvalidParameter` and no window is produced. -/
theorem sax_new_window_succeeds_iff (n w c : ℤ) :
    (sax_new_window n w c).isSome = true ↔
      (1 < n ∧ n ≤ 4096 ∧ 1 < w ∧ w ≤ 2048 ∧ n % w = 0 ∧ 1 < c ∧ c ≤ 16) := by
  unfold sax_new_window check_nwc
  split
  · rename_i h
    simp only [Bool.and_eq_true, decide_eq_true_eq] at h
    simp only [Option.isSome_some, true_iff]
    tauto
  · rename_i h
    simp only [Bool.and_eq_true, decide_eq_true_eq] at h
    simp only [Option.isSome_none, Bool.false_eq_true, false_iff]
    tauto

/-- C2: the distance is the undefined sentinel (`none`, the NaN-equivalent)
exactly when the two symbol counts differ or either cardinality is
unsupported; for every other pair it is a defined numeric value.  The
sentinel is an inspectable result, not an exception. -/
theorem mindist_undefined_iff (a b : Word) :
    sts_mindist_sq a b = none ↔
      (a.w ≠ b.w ∨ ¬(1 < a.c ∧ a.c ≤ STS_MAX_CARDINALITY) ∨
        ¬(1 < b.c ∧ b.c ≤ STS_MAX_CARDINALITY)) := by
  unfold sts_mindist_sq supportedCard
  split
  · rename_i h
    simp only [Bool.and_eq_true, decide_eq_true_eq] at h
    simp only [reduceCtorEq, false_iff]
    tauto
  · rename_i h
    simp only [Bool.and_eq_true, decide_eq_true_eq] at h
    simp only [true_iff]
    tauto

/-- C8: encoding the series `[1,2,3,4,5,6,7,8]` with `w = 4` and `c = 4`
yields exactly the symbol sequence `[0, 1, 2, 3]`. -/
theorem to_sax_one_to_eight :
    sts_to_sax [1, 2, 3, 4, 5, 6, 7, 8] 4 4 = some ⟨8, 4, 4, [0, 1, 2, 3]⟩ := by
  norm_num [sts_to_sax, sts_mean, sts_variance, sts_segment_means, symbol_for,
    betaLeDiv, breakpoints, STS_STAT_EPS, STS_MAX_CARDINALITY, List.range_succ]

/-- C4: for valid parameters and any input whose population standard
deviation is below `STS_STAT_EPS` (equivalently, variance below its square;
in particular any constant sequence), the encoder yields exactly `w` symbols,
every one equal to `c / 2` (floor division). -/
theorem to_sax_constant_midpoint (series : List ℚ) (n w c : ℕ)
    (hlen : series.length = n) (hn : 1 < n) (hw : 1 < w)
    (hmod : n % w = 0) (hc : 1 < c) (hc16 : c ≤ STS_MAX_CARDINALITY)
    (hconst : sts_variance series < STS_STAT_EPS ^ 2 ∨
      ∃ x : ℚ, series = List.replicate n x) :
    sts_to_sax series w c = some ⟨n, w, c, List.replicate w (c / 2)⟩ := by
  have hvar : sts_variance series < STS_STAT_EPS ^ 2 := by
    rcases hconst with h | ⟨x, rfl⟩
    · exact h
    · rw [sts_variance_replicate]
      norm_num [STS_STAT_EPS]
  unfold sts_to_sax
  rw [hlen, if_pos ⟨hn, hw, hc, hc16, hmod⟩]
  dsimp only
  rw [if_pos hvar]

/-- Witness for C4 at the constant series `[5,5,5,5]` with `w = 2`, `c = 5`. -/
theorem to_sax_constant_midpoint_witness :
    (([5, 5, 5, 5] : List ℚ).length = 4 ∧ 1 < 4 ∧ 1 < 2 ∧ 4 % 2 = 0 ∧
      1 < 5 ∧ 5 ≤ STS_MAX_CARDINALITY ∧
      (sts_variance [5, 5, 5, 5] < STS_STAT_EPS ^ 2 ∨
        ∃ x : ℚ, ([5, 5, 5, 5] : List ℚ) = List.replicate 4 x)) ∧
    sts_to_sax [5, 5, 5, 5] 2 5 = some ⟨4, 2, 5, List.replicate 2 (5 / 2)⟩ :=
  ⟨⟨rfl, by decide, by decide, by decide, by decide, by decide,
      Or.inr ⟨5, rfl⟩⟩,
    to_sax_constant_midpoint [5, 5, 5, 5] 4 2 5 rfl (by decide) (by decide)
      (by decide) (by decide) (by decide) (Or.inr ⟨5, rfl⟩)⟩

/-- C10: the binding's distance, equality and to-string operations accept a
word or a window operand; a window operand resolves to the address of the
window's live cached word and the store is left unchanged (no copy), while
`get_word` allocates a fresh address (distinct from every existing one)
holding a value-equal copy of the cached word. -/
theorem lua_operand_dispatch (store : List Word) (win : LuaWindow)
    (o : SaxOperand) (addr : ℕ) :
    check_word_or_window (SaxOperand.word addr) = addr ∧
    check_word_or_window (SaxOperand.window win) = win.current_word ∧
    sax_mindist_lua store (SaxOperand.window win) o =
      (store, sts_mindist_sq (store.getD win.current_word defaultWord)
        (store.getD (check_word_or_window o) defaultWord)) ∧
    sax_equal_lua store (SaxOperand.window win) o =
      (store, sts_words_equal (store.getD win.current_word defaultWord)
        (store.getD (check_word_or_window o) defaultWord)) ∧
    sax_to_string_lua store (SaxOperand.window win) =
      (store, sts_word_to_sax_string (store.getD win.current_word defaultWord)) ∧
    (sax_window_get_word store win).1 =
      store ++ [store.getD win.current_word defaultWord] ∧
    (sax_window_get_word store win).2 = store.length ∧
    (∀ i, i < store.length → (sax_window_get_word store win).2 ≠ i) ∧
    (sax_window_get_word store win).1.getD (sax_window_get_word store win).2
        defaultWord =
      store.getD win.current_word defaultWord := by
  refine ⟨rfl, rfl, rfl, rfl, rfl, rfl, rfl, ?_, ?_⟩
  · intro i hi h
    simp only [sax_window_get_word, sts_dup_word] at h
    omega
  · show (store ++ [store.getD win.current_word defaultWord]).getD store.length
        defaultWord = store.getD win.current_word defaultWord
    rw [List.getD_append_right store _ defaultWord store.length
      (le_refl store.length)]
    simp

/-- Witness for C10 at a concrete store, window and operands. -/
theorem lua_operand_dispatch_witness :
    check_word_or_window (SaxOperand.word 3) = 3 ∧
    check_word_or_window (SaxOperand.window ⟨0⟩) = (0 : ℕ) ∧
    sax_mindist_lua [defaultWord] (SaxOperand.window ⟨0⟩) (SaxOperand.word 0) =
      ([defaultWord], sts_mindist_sq ([defaultWord].getD 0 defaultWord)
        ([defaultWord].getD (check_word_or_window (SaxOperand.word 0))
          defaultWord)) ∧
    sax_equal_lua [defaultWord] (SaxOperand.window ⟨0⟩) (SaxOperand.word 0) =
      ([defaultWord], sts_words_equal ([defaultWord].getD 0 defaultWord)
        ([defaultWord].getD (check_word_or_window (SaxOperand.word 0))
          defaultWord)) ∧
    sax_to_string_lua [defaultWord] (SaxOperand.window ⟨0⟩) =
      ([defaultWord],
        sts_word_to_sax_string ([defaultWord].getD 0 defaultWord)) ∧
    (sax_window_get_word [defaultWord] ⟨0⟩).1 =
      [defaultWord] ++ [[defaultWord].getD 0 defaultWord] ∧
    (sax_window_get_word [defaultWord] ⟨0⟩).2 = [defaultWord].length ∧
    (∀ i, i < [defaultWord].length →
      (sax_window_get_word [defaultWord] ⟨0⟩).2 ≠ i) ∧
    (sax_window_get_word [defaultWord] ⟨0⟩).1.getD
        (sax_window_get_word [defaultWord] ⟨0⟩).2 defaultWord =
      [defaultWord].getD 0 defaultWord :=
  lua_operand_dispatch [defaultWord] ⟨0⟩ (SaxOperand.word 0) 3

/-- Every breakpoint table is strictly ascending. -/
theorem breakpoints_sorted (c : ℕ) : (breakpoints c).Pairwise (· < ·) := by
  rw [← List.chain'_iff_pairwise]
  unfold breakpoints
  split
  all_goals norm_num [List.chain'_cons, List.chain'_singleton, List.chain'_nil]

/-- A supported cardinality's breakpoint table has exactly `c - 1` entries. -/
theorem breakpoints_length (c : ℕ) (hc1 : 1 < c)
    (hc16 : c ≤ STS_MAX_CARDINALITY) :
    (breakpoints c).length = c - 1 := by
  have h16 : STS_MAX_CARDINALITY = 16 := rfl
  rw [h16] at hc16
  interval_cases c <;> rfl

/-- Region distance of a symbol with itself, at one supported cardinality, is
zero. -/
theorem sts_dist_self (s c : ℕ) (hc1 : 1 < c)
    (hc16 : c ≤ STS_MAX_CARDINALITY) : sts_dist s c s c = 0 := by
  have hlen : (breakpoints c).length = c - 1 := breakpoints_length c hc1 hc16
  have hp := breakpoints_sorted c
  rw [List.pairwise_iff_get] at hp
  have hnot : ¬ (1 ≤ s ∧ s + 1 < c ∧
      (breakpoints c).getD s 0 < (breakpoints c).getD (s - 1) 0) := by
    rintro ⟨hs1, hsc, hlt⟩
    have hs_len : s < (breakpoints c).length := by omega
    have hs1_len : s - 1 < (breakpoints c).length := by omega
    have hmono := hp ⟨s - 1, hs1_len⟩ ⟨s, hs_len⟩
      (by simp only [Fin.mk_lt_mk]; omega)
    rw [List.getD_eq_getElem _ _ hs_len, List.getD_eq_getElem _ _ hs1_len]
      at hlt
    simp only [List.get_eq_getElem] at hmono
    exact absurd hlt (not_lt.mpr (le_of_lt hmono))
  unfold sts_dist
  rw [if_neg hnot, if_neg hnot]

/-- Region distance is symmetric in its two (symbol, cardinality) arguments
for supported cardinalities. -/
theorem sts_dist_comm (sa ca sb cb : ℕ) (hca1 : 1 < ca)
    (hca16 : ca ≤ STS_MAX_CARDINALITY) (hcb1 : 1 < cb)
    (hcb16 : cb ≤ STS_MAX_CARDINALITY) :
    sts_dist sa ca sb cb = sts_dist sb cb sa ca := by
  have hlena := breakpoints_length ca hca1 hca16
  have hlenb := breakpoints_length cb hcb1 hcb16
  have hpa := breakpoints_sorted ca
  have hpb := breakpoints_sorted cb
  rw [List.pairwise_iff_get] at hpa hpb
  have hexcl : ¬ ((1 ≤ sb ∧ sa + 1 < ca ∧
      (breakpoints ca).getD sa 0 < (breakpoints cb).getD (sb - 1) 0) ∧
    (1 ≤ sa ∧ sb + 1 < cb ∧
      (breakpoints cb).getD sb 0 < (breakpoints ca).getD (sa - 1) 0)) := by
    rintro ⟨⟨hsb1, hsaca, hlt1⟩, ⟨hsa1, hsbcb, hlt2⟩⟩
    have hsa_len : sa < (breakpoints ca).length := by omega
    have hsa1_len : sa - 1 < (breakpoints ca).length := by omega
    have hsb_len : sb < (breakpoints cb).length := by omega
    have hsb1_len : sb - 1 < (breakpoints cb).length := by omega
    have hma := hpa ⟨sa - 1, hsa1_len⟩ ⟨sa, hsa_len⟩
      (by simp only [Fin.mk_lt_mk]; omega)
    have hmb := hpb ⟨sb - 1, hsb1_len⟩ ⟨sb, hsb_len⟩
      (by simp only [Fin.mk_lt_mk]; omega)
    rw [List.getD_eq_getElem _ _ hsa_len, List.getD_eq_getElem _ _ hsb1_len]
      at hlt1
    rw [List.getD_eq_getElem _ _ hsb_len, List.getD_eq_getElem _ _ hsa1_len]
      at hlt2
    simp only [List.get_eq_getElem] at hma hmb
    linarith
  unfold sts_dist
  by_cases hA : 1 ≤ sb ∧ sa + 1 < ca ∧
      (breakpoints ca).getD sa 0 < (breakpoints cb).getD (sb - 1) 0
  · have hB : ¬ (1 ≤ sa ∧ sb + 1 < cb ∧
        (breakpoints cb).getD sb 0 < (breakpoints ca).getD (sa - 1) 0) :=
      fun hB => hexcl ⟨hA, hB⟩
    rw [if_pos hA, if_neg hB, if_pos hA]
  · rw [if_neg hA]
    by_cases hB : 1 ≤ sa ∧ sb + 1 < cb ∧
        (breakpoints cb).getD sb 0 < (breakpoints ca).getD (sa - 1) 0
    · rw [if_pos hB, if_pos hB]
    · rw [if_neg hB, if_neg hB, if_neg hA]

/-- A supported cardinality in terms of its bounds. -/
theorem supportedCard_iff (c : ℕ) :
    supportedCard c = true ↔ (1 < c ∧ c ≤ STS_MAX_CARDINALITY) := by
  simp [supportedCard]

/-- C7 (amended): for every well-formed word the self-distance is defined and
zero, and the distance is symmetric for compatible words with equal source
length (symmetry does not extend to words whose source lengths differ, since
the scale factor reads the first argument's `n_values`). -/
theorem mindist_refl_zero_and_comm (a b : Word)
    (ha : wellFormedWord a) (hb : wellFormedWord b)
    (hw : a.w = b.w) (hn : a.n_values = b.n_values) :
    (sts_mindist_sq a a = some 0 ∧
      Real.sqrt (((sts_mindist_sq a a).getD 0 : ℚ) : ℝ) = 0) ∧
    sts_mindist_sq a b = sts_mindist_sq b a ∧
    Real.sqrt (((sts_mindist_sq a b).getD 0 : ℚ) : ℝ) =
      Real.sqrt (((sts_mindist_sq b a).getD 0 : ℚ) : ℝ) := by
  have hca : supportedCard a.c = true := (supportedCard_iff a.c).2 ⟨ha.2.2.1, ha.2.2.2.1⟩
  have hcb : supportedCard b.c = true := (supportedCard_iff b.c).2 ⟨hb.2.2.1, hb.2.2.2.1⟩
  have hself : sts_mindist_sq a a = some 0 := by
    unfold sts_mindist_sq
    rw [if_pos ⟨rfl, hca, hca⟩]
    have hzip : a.symbols.zip a.symbols = a.symbols.map (fun s => (s, s)) := by
      have := List.zip_map' (id : ℕ → ℕ) (id : ℕ → ℕ) a.symbols
      simpa using this
    have hsum :
        ((a.symbols.zip a.symbols).map
          (fun p => (sts_dist p.1 a.c p.2 a.c) ^ 2)).sum = 0 := by
      apply List.sum_eq_zero
      intro x hx
      rw [hzip, List.map_map] at hx
      rcases List.mem_map.mp hx with ⟨s, _, rfl⟩
      simp [sts_dist_self s a.c ha.2.2.1 ha.2.2.2.1]
    rw [hsum, mul_zero]
  have hcomm : sts_mindist_sq a b = sts_mindist_sq b a := by
    unfold sts_mindist_sq
    rw [if_pos ⟨hw, hca, hcb⟩, if_pos ⟨hw.symm, hcb, hca⟩]
    rw [hn, hw]
    have hswap : b.symbols.zip a.symbols =
        (a.symbols.zip b.symbols).map Prod.swap := (List.zip_swap _ _).symm
    rw [hswap, List.map_map]
    have hmapeq : ((a.symbols.zip b.symbols).map
          ((fun p : ℕ × ℕ => (sts_dist p.1 b.c p.2 a.c) ^ 2) ∘ Prod.swap)) =
        ((a.symbols.zip b.symbols).map
          (fun p : ℕ × ℕ => (sts_dist p.1 a.c p.2 b.c) ^ 2)) := by
      apply List.map_congr_left
      intro p _
      simp only [Function.comp_apply, Prod.fst_swap, Prod.snd_swap]
      rw [sts_dist_comm p.2 b.c p.1 a.c hb.2.2.1 hb.2.2.2.1 ha.2.2.1
        ha.2.2.2.1]
    rw [hmapeq]
  refine ⟨⟨hself, ?_⟩, hcomm, by rw [hcomm]⟩
  rw [hself]
  simp

/-- Witness for C7 at two concrete compatible words of equal source length. -/
theorem mindist_refl_zero_and_comm_witness :
    (wellFormedWord ⟨4, 2, 4, [0, 3]⟩ ∧ wellFormedWord ⟨4, 2, 3, [1, 0]⟩ ∧
      (⟨4, 2, 4, [0, 3]⟩ : Word).w = (⟨4, 2, 3, [1, 0]⟩ : Word).w ∧
      (⟨4, 2, 4, [0, 3]⟩ : Word).n_values = (⟨4, 2, 3, [1, 0]⟩ : Word).n_values) ∧
    ((sts_mindist_sq ⟨4, 2, 4, [0, 3]⟩ ⟨4, 2, 4, [0, 3]⟩ = some 0 ∧
      Real.sqrt (((sts_mindist_sq ⟨4, 2, 4, [0, 3]⟩ ⟨4, 2, 4, [0, 3]⟩).getD 0 : ℚ) : ℝ) = 0) ∧
    sts_mindist_sq ⟨4, 2, 4, [0, 3]⟩ ⟨4, 2, 3, [1, 0]⟩ =
      sts_mindist_sq ⟨4, 2, 3, [1, 0]⟩ ⟨4, 2, 4, [0, 3]⟩ ∧
    Real.sqrt (((sts_mindist_sq ⟨4, 2, 4, [0, 3]⟩ ⟨4, 2, 3, [1, 0]⟩).getD 0 : ℚ) : ℝ) =
      Real.sqrt (((sts_mindist_sq ⟨4, 2, 3, [1, 0]⟩ ⟨4, 2, 4, [0, 3]⟩).getD 0 : ℚ) : ℝ)) :=
  ⟨⟨by unfold wellFormedWord; decide, by unfold wellFormedWord; decide,
      by decide, by decide⟩,
    mindist_refl_zero_and_comm ⟨4, 2, 4, [0, 3]⟩ ⟨4, 2, 3, [1, 0]⟩
      (by unfold wellFormedWord; decide) (by unfold wellFormedWord; decide)
      (by decide) (by decide)⟩

/-- Counterexample to C7 as stated: two compatible well-formed words whose
source lengths differ give different distances in the two argument orders. -/
theorem mindist_comm_counterexample :
    (wellFormedWord ⟨2, 2, 4, [0, 3]⟩ ∧ wellFormedWord ⟨8, 2, 4, [3, 0]⟩ ∧
      (⟨2, 2, 4, [0, 3]⟩ : Word).w = (⟨8, 2, 4, [3, 0]⟩ : Word).w) ∧
    Real.sqrt (((sts_mindist_sq ⟨2, 2, 4, [0, 3]⟩ ⟨8, 2, 4, [3, 0]⟩).getD 0 : ℚ) : ℝ) ≠
      Real.sqrt (((sts_mindist_sq ⟨8, 2, 4, [3, 0]⟩ ⟨2, 2, 4, [0, 3]⟩).getD 0 : ℚ) : ℝ) := by
  constructor
  · exact ⟨by unfold wellFormedWord; decide, by unfold wellFormedWord; decide,
      by decide⟩
  · have h1 : sts_mindist_sq ⟨2, 2, 4, [0, 3]⟩ ⟨8, 2, 4, [3, 0]⟩ =
        some (1819801 / 500000) := by
      norm_num [sts_mindist_sq, supportedCard, sts_dist, breakpoints,
        STS_MAX_CARDINALITY, List.getD_cons_zero, List.getD_cons_succ]
    have h2 : sts_mindist_sq ⟨8, 2, 4, [3, 0]⟩ ⟨2, 2, 4, [0, 3]⟩ =
        some (1819801 / 125000) := by
      norm_num [sts_mindist_sq, supportedCard, sts_dist, breakpoints,
        STS_MAX_CARDINALITY, List.getD_cons_zero, List.getD_cons_succ]
    rw [h1, h2, Option.getD_some, Option.getD_some]
    apply ne_of_lt
    apply Real.sqrt_lt_sqrt
    · positivity
    · push_cast
      norm_num

/-- Decoding recovers the symbol index of every representable symbol. -/
theorem saxAlphabet_indexOf_getD :
    ∀ s, s < 26 → saxAlphabet.indexOf (saxAlphabet.getD s 'a') = s := by
  decide

/-- Every representable symbol's character belongs to the alphabet. -/
theorem saxAlphabet_contains_getD :
    ∀ s, s < 26 → saxAlphabet.contains (saxAlphabet.getD s 'a') = true := by
  decide

/-- C6 (amended): every well-formed word with at least two symbols decodes,
from its own encoded string at its own cardinality, to a word that agrees on
symbol count, cardinality and symbol sequence (the `words_equal` fields except
`source_length`), and whose `source_length` equals its symbol count. -/
theorem sax_string_round_trip (a : Word) (h : wellFormedWord a)
    (hw2 : 2 ≤ a.w) :
    ∃ s b, sts_word_to_sax_string a = some s ∧
      sts_from_sax_string s a.c = some b ∧
      b.w = a.w ∧ b.c = a.c ∧ b.symbols = a.symbols ∧ b.n_values = b.w := by
  obtain ⟨hlen, hsym, hc1, hc16, -⟩ := h
  have h26 : ∀ s ∈ a.symbols, s < 26 := by
    intro s hs
    have h1 : s < a.c := hsym s hs
    have h2 : STS_MAX_CARDINALITY = 16 := rfl
    omega
  have henc : sts_word_to_sax_string a =
      some (a.symbols.map (fun s => saxAlphabet.getD s 'a')) := by
    unfold sts_word_to_sax_string
    rw [if_pos]
    rw [List.all_eq_true]
    intro s hs
    exact decide_eq_true (h26 s hs)
  set s := a.symbols.map (fun s => saxAlphabet.getD s 'a') with hs_def
  have hidx : s.map (fun ch => saxAlphabet.indexOf ch) = a.symbols := by
    rw [hs_def, List.map_map]
    have hpt : ∀ x ∈ a.symbols,
        ((fun ch => saxAlphabet.indexOf ch) ∘ fun s => saxAlphabet.getD s 'a') x
          = id x := by
      intro x hx
      simp only [Function.comp_apply, id_eq]
      exact saxAlphabet_indexOf_getD x (h26 x hx)
    rw [List.map_congr_left hpt, List.map_id]
  have hslen : s.length = a.w := by rw [hs_def, List.length_map, hlen]
  have hdec : sts_from_sax_string s a.c =
      some ⟨s.length, s.length, a.c, s.map (fun ch => saxAlphabet.indexOf ch)⟩ := by
    unfold sts_from_sax_string
    rw [if_pos]
    refine ⟨by omega, (supportedCard_iff a.c).2 ⟨hc1, hc16⟩, ?_, ?_⟩
    · rw [List.all_eq_true]
      intro ch hch
      rcases List.mem_map.mp hch with ⟨x, hx, rfl⟩
      exact saxAlphabet_contains_getD x (h26 x hx)
    · rw [hidx, List.all_eq_true]
      intro x hx
      exact decide_eq_true (hsym x hx)
  refine ⟨s, _, henc, hdec, ?_, rfl, ?_, ?_⟩
  · exact hslen
  · exact hidx
  · rfl

/-- Witness for C6 at the concrete word with symbols `[0, 3]`. -/
theorem sax_string_round_trip_witness :
    (wellFormedWord ⟨4, 2, 4, [0, 3]⟩ ∧ 2 ≤ (⟨4, 2, 4, [0, 3]⟩ : Word).w) ∧
    ∃ s b, sts_word_to_sax_string ⟨4, 2, 4, [0, 3]⟩ = some s ∧
      sts_from_sax_string s (⟨4, 2, 4, [0, 3]⟩ : Word).c = some b ∧
      b.w = (⟨4, 2, 4, [0, 3]⟩ : Word).w ∧ b.c = (⟨4, 2, 4, [0, 3]⟩ : Word).c ∧
      b.symbols = (⟨4, 2, 4, [0, 3]⟩ : Word).symbols ∧ b.n_values = b.w :=
  ⟨⟨by unfold wellFormedWord; decide, by decide⟩,
    sax_string_round_trip ⟨4, 2, 4, [0, 3]⟩ (by unfold wellFormedWord; decide)
      (by decide)⟩

/-- Counterexample to C6 as stated: the single-symbol word `[0]` at
cardinality 2 is well-formed by the data-model invariant (`w ≥ 1`), yet its
encoded string has length 1 and the decoder requires length above 1, so the
round trip fails. -/
theorem sax_string_round_trip_counterexample :
    wellFormedWord ⟨1, 1, 2, [0]⟩ ∧
    ¬ ∃ s b, sts_word_to_sax_string ⟨1, 1, 2, [0]⟩ = some s ∧
      sts_from_sax_string s (⟨1, 1, 2, [0]⟩ : Word).c = some b ∧
      b.w = (⟨1, 1, 2, [0]⟩ : Word).w ∧ b.c = (⟨1, 1, 2, [0]⟩ : Word).c ∧
      b.symbols = (⟨1, 1, 2, [0]⟩ : Word).symbols ∧ b.n_values = b.w := by
  constructor
  · exact ⟨rfl, by decide, by decide, by decide, by decide⟩
  · rintro ⟨s, b, henc, hdec, -⟩
    have hs : s = ['a'] := by
      have : sts_word_to_sax_string ⟨1, 1, 2, [0]⟩ = some ['a'] := by decide
      rw [this] at henc
      exact (Option.some_injective _ henc).symm
    subst hs
    have : sts_from_sax_string ['a'] (⟨1, 1, 2, [0]⟩ : Word).c = none := by decide
    rw [this] at hdec
    exact Option.noConfusion hdec

/-- Appending preserves the window parameters and the buffer bound. -/
theorem append_value_length_le (win : Window) (x : ℚ)
    (h : win.buf.length ≤ win.n) (hn : 1 ≤ win.n) :
    (sts_append_value win x).1.buf.length ≤ win.n := by
  unfold sts_append_value
  dsimp only
  by_cases hfull : win.buf.length = win.n
  · rw [if_pos hfull]
    simp only [List.length_append, List.length_drop, List.length_cons,
      List.length_nil]
    omega
  · rw [if_neg hfull]
    simp only [List.length_append, List.length_cons, List.length_nil]
    omega

/-- The buffer produced by one append, as the last `n` entries of the old
buffer extended by the new value. -/
theorem append_shift (win : Window) (x : ℚ) (rest : List ℚ)
    (h : win.buf.length ≤ win.n) (hn : 1 ≤ win.n) :
    ((sts_append_value win x).1.buf ++ rest).drop
        ((sts_append_value win x).1.buf.length + rest.length - win.n) =
      (win.buf ++ x :: rest).drop
        (win.buf.length + (x :: rest).length - win.n) := by
  unfold sts_append_value
  dsimp only
  by_cases hfull : win.buf.length = win.n
  · rw [if_pos hfull]
    have hlen1 : (win.buf.drop 1 ++ [x]).length = win.n := by
      simp only [List.length_append, List.length_drop, List.length_cons,
        List.length_nil]
      omega
    rw [hlen1]
    have hamt : win.n + rest.length - win.n = rest.length := by omega
    have hamt2 : win.buf.length + (x :: rest).length - win.n =
        1 + rest.length := by
      simp only [List.length_cons]
      omega
    rw [hamt, hamt2]
    have hsplit : (win.buf ++ x :: rest).drop (1 + rest.length) =
        ((win.buf ++ x :: rest).drop 1).drop rest.length := by
      rw [List.drop_drop]
    rw [hsplit]
    have hdrop1 : (win.buf ++ x :: rest).drop 1 =
        win.buf.drop 1 ++ x :: rest := by
      rw [List.drop_append_eq_append_drop]
      have : 1 - win.buf.length = 0 := by omega
      rw [this, List.drop_zero]
    rw [hdrop1]
    rw [List.append_assoc, List.singleton_append]
  · rw [if_neg hfull]
    rw [List.append_assoc, List.singleton_append]
    simp only [List.length_append, List.length_cons, List.length_nil]
    have : win.buf.length + 1 + rest.length = win.buf.length +
        (rest.length + 1) := by omega
    rw [this]

/-- The window reached by iterated appending holds exactly the last `n`
values of the old buffer followed by the appended values. -/
theorem iterate_fst (vals : List ℚ) :
    ∀ (win : Window) (r : Option Word), win.buf.length ≤ win.n →
      1 ≤ win.n →
      (vals.foldl (fun p x => sts_append_value p.1 x) (win, r)).1 =
        ⟨win.n, win.w, win.c,
          (win.buf ++ vals).drop (win.buf.length + vals.length - win.n)⟩ := by
  induction vals with
  | nil =>
      intro win r h hn
      simp only [List.foldl_nil, List.append_nil, List.length_nil,
        Nat.add_zero, Nat.sub_eq_zero_of_le h, List.drop_zero]
  | cons x rest ih =>
      intro win r h hn
      have hstep : (x :: rest).foldl (fun p x => sts_append_value p.1 x)
          (win, r) = rest.foldl (fun p x => sts_append_value p.1 x)
          ((sts_append_value win x).1, (sts_append_value win x).2) := rfl
      rw [hstep, ih _ _ (append_value_length_le win x h hn) hn]
      have hn' : (sts_append_value win x).1.n = win.n := rfl
      have hw' : (sts_append_value win x).1.w = win.w := rfl
      have hc' : (sts_append_value win x).1.c = win.c := rfl
      rw [hn', hw', hc', append_shift win x rest h hn]

/-- The fold result is independent of the starting accumulator result for a
nonempty batch. -/
theorem iterate_acc_irrelevant (vals : List ℚ) (win : Window)
    (r r' : Option Word) (hne : vals ≠ []) :
    vals.foldl (fun p x => sts_append_value p.1 x) (win, r) =
      vals.foldl (fun p x => sts_append_value p.1 x) (win, r') := by
  cases vals with
  | nil => exact absurd rfl hne
  | cons x rest => rfl

/-- The word reported by iterated appending is the encoding of the final
buffer when it is full, and nothing otherwise. -/
theorem iterate_snd (vals : List ℚ) :
    ∀ (win : Window) (r : Option Word), win.buf.length ≤ win.n →
      1 ≤ win.n → vals ≠ [] →
      (vals.foldl (fun p x => sts_append_value p.1 x) (win, r)).2 =
        (if ((win.buf ++ vals).drop
              (win.buf.length + vals.length - win.n)).length = win.n
         then sts_to_sax ((win.buf ++ vals).drop
              (win.buf.length + vals.length - win.n)) win.w win.c
         else none) := by
  induction vals with
  | nil => intro win r h hn hne; exact absurd rfl hne
  | cons x rest ih =>
      intro win r h hn _
      rcases rest with _ | ⟨y, rest'⟩
      · have hbufeq : (sts_append_value win x).1.buf =
            (win.buf ++ [x]).drop (win.buf.length + 1 - win.n) := by
          have hs := append_shift win x [] h hn
          simp only [List.append_nil, List.length_nil, Nat.add_zero,
            List.length_cons, Nat.zero_add] at hs
          rw [Nat.sub_eq_zero_of_le (append_value_length_le win x h hn),
            List.drop_zero] at hs
          exact hs
        have hfold : ([x].foldl (fun p x => sts_append_value p.1 x)
            (win, r)) = sts_append_value win x := rfl
        rw [hfold]
        have hsnd : (sts_append_value win x).2 =
            if (sts_append_value win x).1.buf.length = win.n
            then sts_to_sax (sts_append_value win x).1.buf win.w win.c
            else none := rfl
        rw [hsnd, hbufeq]
        simp only [List.length_cons, List.length_nil, Nat.zero_add]
      · have hstep : ((x :: y :: rest').foldl
            (fun p x => sts_append_value p.1 x) (win, r)) =
            (y :: rest').foldl (fun p x => sts_append_value p.1 x)
              ((sts_append_value win x).1, (sts_append_value win x).2) := rfl
        rw [hstep, ih _ _ (append_value_length_le win x h hn) hn
          (List.cons_ne_nil y rest')]
        have hn' : (sts_append_value win x).1.n = win.n := rfl
        have hw' : (sts_append_value win x).1.w = win.w := rfl
        have hc' : (sts_append_value win x).1.c = win.c := rfl
        rw [hn', hw', hc', append_shift win x (y :: rest') h hn]

/-- The encoder succeeds on every input meeting its preconditions. -/
theorem sts_to_sax_defined (series : List ℚ) (w c : ℕ)
    (h1 : 1 < series.length) (h2 : 1 < w) (h3 : 1 < c)
    (h4 : c ≤ STS_MAX_CARDINALITY) (h5 : series.length % w = 0) :
    ∃ word : Word, sts_to_sax series w c = some word := by
  unfold sts_to_sax
  dsimp only
  rw [if_pos ⟨h1, h2, h3, h4, h5⟩]
  exact ⟨_, rfl⟩

/-- C9: bulk appending leaves the window in exactly the state produced by
appending each value in order, and returns exactly the result of the final
single append (no intermediate word retained). -/
theorem append_array_eq_iterated (win : Window) (vals : List ℚ)
    (hinv : win.buf.length ≤ win.n) (hn : 1 ≤ win.n) :
    sts_append_array win vals = append_value_iterated win vals := by
  rcases vals with _ | ⟨x, rest⟩
  · unfold sts_append_array append_value_iterated
    simp only [List.foldl_nil, List.append_nil, ne_eq, not_true_eq_false,
      false_and, if_false, Nat.sub_eq_zero_of_le hinv, List.drop_zero]
  · have h1 := iterate_fst (x :: rest) win none hinv hn
    have h2 := iterate_snd (x :: rest) win none hinv hn
      (List.cons_ne_nil x rest)
    unfold append_value_iterated
    rw [show ((x :: rest).foldl (fun p y => sts_append_value p.1 y)
          (win, none)) =
        (((x :: rest).foldl (fun p y => sts_append_value p.1 y)
          (win, none)).1,
         ((x :: rest).foldl (fun p y => sts_append_value p.1 y)
          (win, none)).2) from rfl, h1, h2]
    unfold sts_append_array
    dsimp only
    rw [List.length_append]
    simp only [ne_eq, List.cons_ne_nil, not_false_eq_true, true_and]

/-- Witness for C9 at a concrete partially filled window and batch. -/
theorem append_array_eq_iterated_witness :
    ((⟨4, 2, 4, [1, 2]⟩ : Window).buf.length ≤ (⟨4, 2, 4, [1, 2]⟩ : Window).n ∧
      1 ≤ (⟨4, 2, 4, [1, 2]⟩ : Window).n) ∧
    sts_append_array ⟨4, 2, 4, [1, 2]⟩ [3, 4, 5] =
      append_value_iterated ⟨4, 2, 4, [1, 2]⟩ [3, 4, 5] :=
  ⟨⟨by decide, by decide⟩,
    append_array_eq_iterated ⟨4, 2, 4, [1, 2]⟩ [3, 4, 5] (by decide)
      (by decide)⟩

/-- C5: a valid window is a two-state machine with FIFO eviction: the buffer
never exceeds the capacity, the first `n - 1` appends since creation (or
reset, which restores the fresh state) report no word, every append from the
`n`-th on reports the word over exactly the last `n` samples (each later
append having evicted the single oldest sample), and that word is always
defined. -/
theorem window_fifo_state_machine (n w c : ℕ)
    (hn : 1 < n) (hw : 1 < w) (hmod : n % w = 0) (hc : 1 < c)
    (hc16 : c ≤ STS_MAX_CARDINALITY) :
    (∀ (win : Window) (x : ℚ), win.buf.length ≤ win.n → 1 ≤ win.n →
      (sts_append_value win x).1.buf.length ≤ win.n) ∧
    (∀ vs : List ℚ,
      (append_value_iterated (freshWindow n w c) vs).1.buf =
        vs.drop (vs.length - n)) ∧
    (∀ vs : List ℚ, vs.length < n →
      (append_value_iterated (freshWindow n w c) vs).2 = none) ∧
    (∀ vs : List ℚ, n ≤ vs.length →
      (append_value_iterated (freshWindow n w c) vs).2 =
        sts_to_sax (vs.drop (vs.length - n)) w c ∧
      ∃ word : Word, sts_to_sax (vs.drop (vs.length - n)) w c = some word) ∧
    (∀ win : Window, sts_window_reset win = freshWindow win.n win.w win.c) := by
  have hfresh : (freshWindow n w c).buf.length ≤ (freshWindow n w c).n := by
    simp [freshWindow]
  have hn1 : 1 ≤ (freshWindow n w c).n := by
    show 1 ≤ n
    omega
  refine ⟨fun win x h hn' => append_value_length_le win x h hn', ?_, ?_, ?_,
    fun win => rfl⟩
  · intro vs
    unfold append_value_iterated
    rw [iterate_fst vs (freshWindow n w c) none hfresh hn1]
    show ((freshWindow n w c).buf ++ vs).drop
        ((freshWindow n w c).buf.length + vs.length - (freshWindow n w c).n) =
      vs.drop (vs.length - n)
    simp [freshWindow]
  · intro vs hlt
    rcases vs with _ | ⟨x, rest⟩
    · rfl
    · unfold append_value_iterated
      rw [iterate_snd (x :: rest) (freshWindow n w c) none hfresh hn1
        (List.cons_ne_nil x rest)]
      rw [if_neg]
      intro hcontra
      have hdz : (((freshWindow n w c).buf ++ x :: rest)).drop
          ((freshWindow n w c).buf.length + (x :: rest).length -
            (freshWindow n w c).n) = x :: rest := by
        show ((([] : List ℚ) ++ x :: rest)).drop
          (([] : List ℚ).length + (x :: rest).length - n) = x :: rest
        rw [List.nil_append]
        simp only [List.length_nil, Nat.zero_add]
        rw [Nat.sub_eq_zero_of_le (le_of_lt hlt), List.drop_zero]
      rw [hdz] at hcontra
      exact absurd hcontra (Nat.ne_of_lt hlt)
  · intro vs hge
    have hne : vs ≠ [] := by
      intro hcontra
      subst hcontra
      simp at hge
      omega
    have hdrop : ((freshWindow n w c).buf ++ vs).drop
        ((freshWindow n w c).buf.length + vs.length - (freshWindow n w c).n) =
        vs.drop (vs.length - n) := by
      show ((([] : List ℚ) ++ vs)).drop (([] : List ℚ).length + vs.length - n) =
        vs.drop (vs.length - n)
      rw [List.nil_append]
      simp only [List.length_nil, Nat.zero_add]
    have hlen : (vs.drop (vs.length - n)).length = n := by
      rw [List.length_drop]
      omega
    constructor
    · unfold append_value_iterated
      rw [iterate_snd vs (freshWindow n w c) none hfresh hn1 hne, hdrop]
      show (if (vs.drop (vs.length - n)).length = n then
          sts_to_sax (vs.drop (vs.length - n)) w c else none) =
        sts_to_sax (vs.drop (vs.length - n)) w c
      rw [if_pos hlen]
    · apply sts_to_sax_defined
      · omega
      · omega
      · omega
      · exact hc16
      · rw [hlen]
        exact hmod

/-- Witness for C5: the spec's `n = 4` scenario.  Three appends give no word,
the fourth gives the word over samples 1..4, and the fifth gives the word
over samples 2..5 with the buffer holding exactly those samples. -/
theorem window_fifo_state_machine_witness :
    (1 < 4 ∧ 1 < 2 ∧ 4 % 2 = 0 ∧ 1 < 4 ∧ 4 ≤ STS_MAX_CARDINALITY) ∧
    (append_value_iterated (freshWindow 4 2 4) [1, 2, 3]).2 = none ∧
    (append_value_iterated (freshWindow 4 2 4) [1, 2, 3, 4]).2 =
      sts_to_sax [1, 2, 3, 4] 2 4 ∧
    (append_value_iterated (freshWindow 4 2 4) [1, 2, 3, 4, 5]).2 =
      sts_to_sax [2, 3, 4, 5] 2 4 ∧
    (append_value_iterated (freshWindow 4 2 4) [1, 2, 3, 4, 5]).1.buf =
      [2, 3, 4, 5] := by
  have hthm := window_fifo_state_machine 4 2 4 (by decide) (by decide)
    (by decide) (by decide) (by decide)
  refine ⟨⟨by decide, by decide, by decide, by decide, by decide⟩, ?_, ?_, ?_, ?_⟩
  · exact hthm.2.2.1 [1, 2, 3] (by decide)
  · exact (hthm.2.2.2.1 [1, 2, 3, 4] (by decide)).1
  · exact (hthm.2.2.2.1 [1, 2, 3, 4, 5] (by decide)).1
  · exact hthm.2.1 [1, 2, 3, 4, 5]

/-- The rational decision procedure agrees with the real comparison it
encodes, for positive variance. -/
theorem betaLeDiv_iff (b d v : ℚ) (hv : 0 < v) :
    betaLeDiv b d v = true ↔ ((b : ℝ) ≤ (d : ℝ) / Real.sqrt (v : ℝ)) := by
  have hvR : (0 : ℝ) < (v : ℝ) := by exact_mod_cast hv
  have hs : 0 < Real.sqrt (v : ℝ) := Real.sqrt_pos.mpr hvR
  have hsq : Real.sqrt (v : ℝ) ^ 2 = (v : ℝ) := Real.sq_sqrt hvR.le
  rw [le_div_iff₀ hs]
  unfold betaLeDiv
  by_cases hb : (0 : ℚ) ≤ b
  · rw [if_pos hb]
    have hbR : (0 : ℝ) ≤ (b : ℝ) := by exact_mod_cast hb
    simp only [Bool.and_eq_true, decide_eq_true_eq]
    constructor
    · rintro ⟨hd, hle⟩
      have hdR : (0 : ℝ) ≤ (d : ℝ) := by exact_mod_cast hd
      have hleR : (b : ℝ) ^ 2 * (v : ℝ) ≤ (d : ℝ) ^ 2 := by exact_mod_cast hle
      nlinarith [mul_nonneg hbR hs.le, sq_nonneg ((b : ℝ) * Real.sqrt v - d),
        sq_nonneg ((b : ℝ) * Real.sqrt v + d)]
    · intro hle
      have h2 : (0 : ℝ) ≤ (b : ℝ) * Real.sqrt v := mul_nonneg hbR hs.le
      have hdR : (0 : ℝ) ≤ (d : ℝ) := le_trans h2 hle
      have hsqle : (b : ℝ) ^ 2 * (v : ℝ) ≤ (d : ℝ) ^ 2 := by nlinarith
      exact ⟨by exact_mod_cast hdR, by exact_mod_cast hsqle⟩
  · rw [if_neg hb]
    push_neg at hb
    have hbR : (b : ℝ) < 0 := by exact_mod_cast hb
    have hbs : (b : ℝ) * Real.sqrt v < 0 := mul_neg_of_neg_of_pos hbR hs
    simp only [Bool.or_eq_true, decide_eq_true_eq]
    constructor
    · rintro (hd | hle)
      · have hdR : (0 : ℝ) ≤ (d : ℝ) := by exact_mod_cast hd
        linarith
      · by_cases hd : (0 : ℚ) ≤ d
        · have hdR : (0 : ℝ) ≤ (d : ℝ) := by exact_mod_cast hd
          linarith
        · push_neg at hd
          have hdR : (d : ℝ) < 0 := by exact_mod_cast hd
          have hleR : (d : ℝ) ^ 2 ≤ (b : ℝ) ^ 2 * (v : ℝ) := by exact_mod_cast hle
          nlinarith [sq_nonneg ((b : ℝ) * Real.sqrt v - d),
            sq_nonneg ((b : ℝ) * Real.sqrt v + d)]
    · intro hle
      by_cases hd : (0 : ℚ) ≤ d
      · exact Or.inl hd
      · push_neg at hd
        have hdR : (d : ℝ) < 0 := by exact_mod_cast hd
        have hsqle : (d : ℝ) ^ 2 ≤ (b : ℝ) ^ 2 * (v : ℝ) := by nlinarith
        exact Or.inr (by exact_mod_cast hsqle)

/-- In a strictly sorted list, a downward-closed predicate holds exactly on
the prefix of length `countP`. -/
theorem countP_downward_closed (p : ℚ → Bool)
    (hdc : ∀ x y : ℚ, x ≤ y → p y = true → p x = true) :
    ∀ (l : List ℚ), l.Pairwise (· < ·) →
      ∀ i, i < l.length → (p (l.getD i 0) = true ↔ i < l.countP p) := by
  intro l
  induction l with
  | nil => intro _ i hi; simp at hi
  | cons a t ih =>
      intro hp i hi
      rcases List.pairwise_cons.mp hp with ⟨hat, hpt⟩
      by_cases hpa : p a = true
      · rw [List.countP_cons_of_pos _ _ hpa]
        cases i with
        | zero => simp [List.getD_cons_zero, hpa]
        | succ k =>
            rw [List.getD_cons_succ]
            have hk : k < t.length := by
              simp only [List.length_cons] at hi
              omega
            rw [ih hpt k hk]
            omega
      · have hct : t.countP p = 0 := by
          rw [List.countP_eq_zero]
          intro y hy hpy
          exact hpa (hdc a y (le_of_lt (hat y hy)) hpy)
        rw [List.countP_cons_of_neg _ _ hpa, hct]
        cases i with
        | zero =>
            simp only [List.getD_cons_zero, Nat.lt_irrefl, iff_false]
            exact hpa
        | succ k =>
            rw [List.getD_cons_succ]
            have hk : k < t.length := by
              simp only [List.length_cons] at hi
              omega
            constructor
            · intro hpk
              have hmem : t.getD k 0 ∈ t := by
                rw [List.getD_eq_getElem _ _ hk]
                exact List.getElem_mem hk
              exact absurd hpk (List.countP_eq_zero.mp hct _ hmem)
            · intro h0
              exact absurd h0 (by omega)

/-- The breakpoint at the assigned symbol index lies strictly above the
normalized value. -/
theorem symbol_for_upper (d v : ℚ) (c : ℕ) (hv : 0 < v)
    (hk : symbol_for d v c < (breakpoints c).length) :
    (d : ℝ) / Real.sqrt (v : ℝ) <
      (((breakpoints c).getD (symbol_for d v c) 0 : ℚ) : ℝ) := by
  have hdc : ∀ x y : ℚ, x ≤ y → betaLeDiv y d v = true →
      betaLeDiv x d v = true := by
    intro x y hxy hy
    rw [betaLeDiv_iff _ _ _ hv] at hy ⊢
    have hxyR : (x : ℝ) ≤ (y : ℝ) := by exact_mod_cast hxy
    linarith
  have h := countP_downward_closed (fun b => betaLeDiv b d v) hdc
    (breakpoints c) (breakpoints_sorted c) (symbol_for d v c) hk
  have hfalse : ¬ (betaLeDiv ((breakpoints c).getD (symbol_for d v c) 0) d v
      = true) := by
    rw [h]
    unfold symbol_for
    omega
  rw [betaLeDiv_iff _ _ _ hv] at hfalse
  push_neg at hfalse
  exact hfalse

/-- The breakpoint just below the assigned symbol region lies at or below the
normalized value. -/
theorem symbol_for_lower (d v : ℚ) (c : ℕ) (hv : 0 < v)
    (hk : 0 < symbol_for d v c) :
    (((breakpoints c).getD (symbol_for d v c - 1) 0 : ℚ) : ℝ) ≤
      (d : ℝ) / Real.sqrt (v : ℝ) := by
  have hdc : ∀ x y : ℚ, x ≤ y → betaLeDiv y d v = true →
      betaLeDiv x d v = true := by
    intro x y hxy hy
    rw [betaLeDiv_iff _ _ _ hv] at hy ⊢
    have hxyR : (x : ℝ) ≤ (y : ℝ) := by exact_mod_cast hxy
    linarith
  have hkl : symbol_for d v c ≤ (breakpoints c).length := by
    unfold symbol_for
    exact List.countP_le_length _
  have hi : symbol_for d v c - 1 < (breakpoints c).length := by omega
  have h := countP_downward_closed (fun b => betaLeDiv b d v) hdc
    (breakpoints c) (breakpoints_sorted c) (symbol_for d v c - 1) hi
  have htrue : betaLeDiv ((breakpoints c).getD (symbol_for d v c - 1) 0) d v
      = true := by
    rw [h]
    unfold symbol_for at hk ⊢
    omega
  rw [betaLeDiv_iff _ _ _ hv] at htrue
  exact htrue

/-- The squared region distance of two assigned symbols, each at its own
supported cardinality, never exceeds the squared gap of the normalized values
that produced them. -/
theorem sts_dist_sq_le (cx cy : ℕ) (dx vx dy vy : ℚ)
    (hcx1 : 1 < cx) (hcx16 : cx ≤ STS_MAX_CARDINALITY)
    (hcy1 : 1 < cy) (hcy16 : cy ≤ STS_MAX_CARDINALITY)
    (hvx : 0 < vx) (hvy : 0 < vy) :
    ((sts_dist (symbol_for dx vx cx) cx (symbol_for dy vy cy) cy : ℚ) : ℝ) ^ 2 ≤
      ((dx : ℝ) / Real.sqrt (vx : ℝ) - (dy : ℝ) / Real.sqrt (vy : ℝ)) ^ 2 := by
  have hlenx : (breakpoints cx).length = cx - 1 :=
    breakpoints_length cx hcx1 hcx16
  have hleny : (breakpoints cy).length = cy - 1 :=
    breakpoints_length cy hcy1 hcy16
  unfold sts_dist
  by_cases hA : 1 ≤ symbol_for dy vy cy ∧ symbol_for dx vx cx + 1 < cx ∧
      (breakpoints cx).getD (symbol_for dx vx cx) 0 <
        (breakpoints cy).getD (symbol_for dy vy cy - 1) 0
  · rw [if_pos hA]
    obtain ⟨hsb1, hsa_hi, hlt⟩ := hA
    have hsa_len : symbol_for dx vx cx < (breakpoints cx).length := by omega
    have hX := symbol_for_upper dx vx cx hvx hsa_len
    have hY := symbol_for_lower dy vy cy hvy hsb1
    have hltR : (((breakpoints cx).getD (symbol_for dx vx cx) 0 : ℚ) : ℝ) <
        (((breakpoints cy).getD (symbol_for dy vy cy - 1) 0 : ℚ) : ℝ) := by
      exact_mod_cast hlt
    push_cast
    have h1 : (0 : ℝ) ≤
        (((breakpoints cy).getD (symbol_for dy vy cy - 1) 0 : ℚ) : ℝ) -
          (((breakpoints cx).getD (symbol_for dx vx cx) 0 : ℚ) : ℝ) := by
      linarith
    have h2 : (((breakpoints cy).getD (symbol_for dy vy cy - 1) 0 : ℚ) : ℝ) -
          (((breakpoints cx).getD (symbol_for dx vx cx) 0 : ℚ) : ℝ) ≤
        (dy : ℝ) / Real.sqrt (vy : ℝ) - (dx : ℝ) / Real.sqrt (vx : ℝ) := by
      linarith
    nlinarith [mul_self_le_mul_self h1 h2]
  · rw [if_neg hA]
    by_cases hB : 1 ≤ symbol_for dx vx cx ∧ symbol_for dy vy cy + 1 < cy ∧
        (breakpoints cy).getD (symbol_for dy vy cy) 0 <
          (breakpoints cx).getD (symbol_for dx vx cx - 1) 0
    · rw [if_pos hB]
      obtain ⟨hsa1, hsb_hi, hlt⟩ := hB
      have hsb_len : symbol_for dy vy cy < (breakpoints cy).length := by omega
      have hY := symbol_for_upper dy vy cy hvy hsb_len
      have hX := symbol_for_lower dx vx cx hvx hsa1
      have hltR : (((breakpoints cy).getD (symbol_for dy vy cy) 0 : ℚ) : ℝ) <
          (((breakpoints cx).getD (symbol_for dx vx cx - 1) 0 : ℚ) : ℝ) := by
        exact_mod_cast hlt
      push_cast
      have h1 : (0 : ℝ) ≤
          (((breakpoints cx).getD (symbol_for dx vx cx - 1) 0 : ℚ) : ℝ) -
            (((breakpoints cy).getD (symbol_for dy vy cy) 0 : ℚ) : ℝ) := by
        linarith
      have h2 : (((breakpoints cx).getD (symbol_for dx vx cx - 1) 0 : ℚ) : ℝ) -
            (((breakpoints cy).getD (symbol_for dy vy cy) 0 : ℚ) : ℝ) ≤
          (dx : ℝ) / Real.sqrt (vx : ℝ) - (dy : ℝ) / Real.sqrt (vy : ℝ) := by
        linarith
      nlinarith [mul_self_le_mul_self h1 h2]
    · rw [if_neg hB]
      have hz2 : ((0 : ℚ) : ℝ) ^ 2 = 0 := by norm_num
      rw [hz2]
      positivity

/-- A list sum over a mapped range as a finite sum. -/
theorem list_map_range_sum {M : Type _} [AddCommMonoid M] (f : ℕ → M)
    (n : ℕ) :
    ((List.range n).map f).sum = ∑ i ∈ Finset.range n, f i := by
  induction n with
  | zero => simp
  | succ k ih =>
      rw [List.range_succ, List.map_append, List.sum_append,
        Finset.sum_range_succ, ih]
      simp

/-- A list sum as a finite sum of indexed lookups. -/
theorem list_sum_eq_sum_getD (l : List ℚ) :
    l.sum = ∑ i ∈ Finset.range l.length, l.getD i 0 := by
  induction l with
  | nil => simp
  | cons a t ih =>
      rw [List.sum_cons, List.length_cons, Finset.sum_range_succ']
      simp only [List.getD_cons_succ, List.getD_cons_zero]
      rw [ih]
      exact add_comm _ _

/-- The sum of a list slice as a finite sum of shifted lookups. -/
theorem drop_take_sum (l : List ℚ) (a m : ℕ) (h : a + m ≤ l.length) :
    ((l.drop a).take m).sum = ∑ j ∈ Finset.range m, l.getD (a + j) 0 := by
  rw [list_sum_eq_sum_getD]
  have hlen : ((l.drop a).take m).length = m := by
    rw [List.length_take, List.length_drop]
    omega
  rw [hlen]
  apply Finset.sum_congr rfl
  intro j hj
  have hj' : j < m := Finset.mem_range.mp hj
  have hjl : a + j < l.length := by omega
  rw [List.getD_eq_getElem _ _ (by rw [hlen]; exact hj'),
    List.getD_eq_getElem _ _ hjl]
  rw [List.getElem_take, List.getElem_drop]

/-- Splitting a range sum at an intermediate point. -/
theorem sum_range_add_right {M : Type _} [AddCommMonoid M] (a b : ℕ)
    (f : ℕ → M) :
    ∑ k ∈ Finset.range (a + b), f k =
      (∑ k ∈ Finset.range a, f k) + ∑ j ∈ Finset.range b, f (a + j) := by
  induction b with
  | zero => simp
  | succ t ih =>
      rw [Nat.add_succ, Finset.sum_range_succ, Finset.sum_range_succ, ih,
        add_assoc]

/-- A range sum over a product length regrouped into segments. -/
theorem sum_range_mul {M : Type _} [AddCommMonoid M] (w m : ℕ) (f : ℕ → M) :
    ∑ k ∈ Finset.range (w * m), f k =
      ∑ i ∈ Finset.range w, ∑ j ∈ Finset.range m, f (i * m + j) := by
  induction w with
  | zero => simp
  | succ t ih =>
      rw [Nat.succ_mul, sum_range_add_right, ih, Finset.sum_range_succ]

/-- Cauchy-Schwarz per segment: the segment length times the squared segment
mean is at most the segment sum of squares. -/
theorem per_segment_cs (m : ℕ) (e : ℕ → ℝ) (hm : 0 < m) :
    (m : ℝ) * ((∑ j ∈ Finset.range m, e j) / (m : ℝ)) ^ 2 ≤
      ∑ j ∈ Finset.range m, e j ^ 2 := by
  have hcs : (∑ j ∈ Finset.range m, e j) ^ 2 ≤
      (Finset.range m).card * ∑ j ∈ Finset.range m, e j ^ 2 :=
    sq_sum_le_card_mul_sum_sq
  rw [Finset.card_range] at hcs
  have hmR : (0 : ℝ) < (m : ℝ) := by exact_mod_cast hm
  have hrw : (m : ℝ) * ((∑ j ∈ Finset.range m, e j) / (m : ℝ)) ^ 2 =
      (∑ j ∈ Finset.range m, e j) ^ 2 / (m : ℝ) := by
    field_simp
    ring
  rw [hrw, div_le_iff₀ hmR]
  linarith [hcs]

/-- The normalized segment mean equals the mean of the normalized values of
the segment. -/
theorem seg_norm_mean (l : List ℚ) (mu v : ℚ) (i m : ℕ)
    (hseg : i * m + m ≤ l.length) :
    (((((l.map (fun x => x - mu)).drop (i * m)).take m).sum / (m : ℚ) : ℚ) : ℝ) /
      Real.sqrt (v : ℝ) =
    (∑ j ∈ Finset.range m,
      ((l.getD (i * m + j) 0 - mu : ℚ) : ℝ) / Real.sqrt (v : ℝ)) / (m : ℝ) := by
  have hmap_len : (l.map (fun x => x - mu)).length = l.length :=
    List.length_map _ _
  have hsum : (((l.map (fun x => x - mu)).drop (i * m)).take m).sum =
      ∑ j ∈ Finset.range m, (l.getD (i * m + j) 0 - mu) := by
    rw [drop_take_sum _ _ _ (by rw [hmap_len]; exact hseg)]
    apply Finset.sum_congr rfl
    intro j hj
    have hj' : j < m := Finset.mem_range.mp hj
    have hk : i * m + j < l.length := by omega
    rw [List.getD_eq_getElem _ _ (by rw [hmap_len]; exact hk),
      List.getElem_map, List.getD_eq_getElem _ _ hk]
  rw [hsum]
  push_cast
  rw [← Finset.sum_div]
  ring

set_option maxHeartbeats 1600000 in
/-- C1 (amended): for raw series of equal length whose population standard
deviations are at or above `STS_STAT_EPS` (so neither encoding takes the
constant-series path), the distance between the words encoded with the same
symbol count, at any supported cardinalities, is at most the true Euclidean
distance between the z-normalized raw series. -/
theorem mindist_lower_bound (xs ys : List ℚ) (w cx cy : ℕ)
    (hlen : ys.length = xs.length)
    (hvx : STS_STAT_EPS ^ 2 ≤ sts_variance xs)
    (hvy : STS_STAT_EPS ^ 2 ≤ sts_variance ys) :
    MindistLeTrueDist xs ys w cx cy := by
  intro a b ha hb
  have heps : (0 : ℚ) < STS_STAT_EPS ^ 2 := by norm_num [STS_STAT_EPS]
  have hvx0 : 0 < sts_variance xs := lt_of_lt_of_le heps hvx
  have hvy0 : 0 < sts_variance ys := lt_of_lt_of_le heps hvy
  unfold sts_to_sax at ha hb
  rw [hlen] at hb
  by_cases hcondx : 1 < xs.length ∧ 1 < w ∧ 1 < cx ∧
      cx ≤ STS_MAX_CARDINALITY ∧ xs.length % w = 0
  swap
  · rw [if_neg hcondx] at ha
    exact absurd ha (by simp)
  by_cases hcondy : 1 < xs.length ∧ 1 < w ∧ 1 < cy ∧
      cy ≤ STS_MAX_CARDINALITY ∧ xs.length % w = 0
  swap
  · rw [if_neg hcondy] at hb
    exact absurd hb (by simp)
  rw [if_pos hcondx] at ha
  rw [if_pos hcondy] at hb
  dsimp only at ha hb
  rw [if_neg (not_lt.mpr hvx)] at ha
  rw [if_neg (not_lt.mpr hvy)] at hb
  obtain ⟨hn1, hw1, hcx1, hcx16, hmod⟩ := hcondx
  obtain ⟨-, -, hcy1, hcy16, -⟩ := hcondy
  obtain rfl := (Option.some.inj ha).symm
  obtain rfl := (Option.some.inj hb).symm
  have hwdvd : w ∣ xs.length := Nat.dvd_of_mod_eq_zero hmod
  have hnwm : xs.length = w * (xs.length / w) := (Nat.mul_div_cancel' hwdvd).symm
  have hm1 : 0 < xs.length / w := by
    rcases Nat.eq_zero_or_pos (xs.length / w) with h0 | h1
    · rw [h0, mul_zero] at hnwm
      omega
    · exact h1
  have hsuppx : supportedCard cx = true := (supportedCard_iff cx).2 ⟨hcx1, hcx16⟩
  have hsuppy : supportedCard cy = true := (supportedCard_iff cy).2 ⟨hcy1, hcy16⟩
  have hw0q : ((w : ℕ) : ℚ) ≠ 0 := Nat.cast_ne_zero.mpr (by omega)
  have hq_nw : ((xs.length : ℕ) : ℚ) / ((w : ℕ) : ℚ) =
      ((xs.length / w : ℕ) : ℚ) := (Nat.cast_div hwdvd hw0q).symm
  have hmd : sts_mindist_sq
      ⟨xs.length, w, cx, (sts_segment_means (xs.map (fun x => x - sts_mean xs))
        w (xs.length / w)).map (fun d => symbol_for d (sts_variance xs) cx)⟩
      ⟨xs.length, w, cy, (sts_segment_means (ys.map (fun x => x - sts_mean ys))
        w (xs.length / w)).map (fun d => symbol_for d (sts_variance ys) cy)⟩ =
      some (((xs.length : ℕ) : ℚ) / ((w : ℕ) : ℚ) *
        ((((sts_segment_means (xs.map (fun x => x - sts_mean xs)) w
            (xs.length / w)).map
              (fun d => symbol_for d (sts_variance xs) cx)).zip
          ((sts_segment_means (ys.map (fun x => x - sts_mean ys)) w
            (xs.length / w)).map
              (fun d => symbol_for d (sts_variance ys) cy))).map
          (fun p => (sts_dist p.1 cx p.2 cy) ^ 2)).sum) := by
    unfold sts_mindist_sq
    rw [if_pos ⟨rfl, hsuppx, hsuppy⟩]
  rw [hmd, Option.getD_some]
  apply Real.sqrt_le_sqrt
  have hS : ((((sts_segment_means (xs.map (fun x => x - sts_mean xs)) w
        (xs.length / w)).map (fun d => symbol_for d (sts_variance xs) cx)).zip
      ((sts_segment_means (ys.map (fun x => x - sts_mean ys)) w
        (xs.length / w)).map (fun d => symbol_for d (sts_variance ys) cy))).map
      (fun p => (sts_dist p.1 cx p.2 cy) ^ 2)).sum =
    ∑ i ∈ Finset.range w,
      (sts_dist
        (symbol_for ((((xs.map (fun x => x - sts_mean xs)).drop
          (i * (xs.length / w))).take (xs.length / w)).sum /
            ((xs.length / w : ℕ) : ℚ)) (sts_variance xs) cx) cx
        (symbol_for ((((ys.map (fun x => x - sts_mean ys)).drop
          (i * (xs.length / w))).take (xs.length / w)).sum /
            ((xs.length / w : ℕ) : ℚ)) (sts_variance ys) cy) cy) ^ 2 := by
    unfold sts_segment_means
    rw [List.map_map, List.map_map, List.zip_map', List.map_map,
      list_map_range_sum]
    apply Finset.sum_congr rfl
    intro i _
    simp only [Function.comp_apply]
  rw [hS, hq_nw]
  have hcastq : ((((xs.length / w : ℕ) : ℚ) *
      ∑ i ∈ Finset.range w,
        (sts_dist
          (symbol_for ((((xs.map (fun x => x - sts_mean xs)).drop
            (i * (xs.length / w))).take (xs.length / w)).sum /
              ((xs.length / w : ℕ) : ℚ)) (sts_variance xs) cx) cx
          (symbol_for ((((ys.map (fun x => x - sts_mean ys)).drop
            (i * (xs.length / w))).take (xs.length / w)).sum /
              ((xs.length / w : ℕ) : ℚ)) (sts_variance ys) cy) cy) ^ 2 : ℚ) : ℝ) =
      ((xs.length / w : ℕ) : ℝ) *
      ∑ i ∈ Finset.range w,
        ((sts_dist
          (symbol_for ((((xs.map (fun x => x - sts_mean xs)).drop
            (i * (xs.length / w))).take (xs.length / w)).sum /
              ((xs.length / w : ℕ) : ℚ)) (sts_variance xs) cx) cx
          (symbol_for ((((ys.map (fun x => x - sts_mean ys)).drop
            (i * (xs.length / w))).take (xs.length / w)).sum /
              ((xs.length / w : ℕ) : ℚ)) (sts_variance ys) cy) cy : ℚ) : ℝ) ^ 2 := by
    push_cast
    ring
  rw [hcastq]
  calc ((xs.length / w : ℕ) : ℝ) *
      ∑ i ∈ Finset.range w,
        ((sts_dist
          (symbol_for ((((xs.map (fun x => x - sts_mean xs)).drop
            (i * (xs.length / w))).take (xs.length / w)).sum /
              ((xs.length / w : ℕ) : ℚ)) (sts_variance xs) cx) cx
          (symbol_for ((((ys.map (fun x => x - sts_mean ys)).drop
            (i * (xs.length / w))).take (xs.length / w)).sum /
              ((xs.length / w : ℕ) : ℚ)) (sts_variance ys) cy) cy : ℚ) : ℝ) ^ 2
      ≤ ((xs.length / w : ℕ) : ℝ) *
      ∑ i ∈ Finset.range w,
        (((((((xs.map (fun x => x - sts_mean xs)).drop
            (i * (xs.length / w))).take (xs.length / w)).sum /
              ((xs.length / w : ℕ) : ℚ) : ℚ)) : ℝ) /
            Real.sqrt ((sts_variance xs : ℚ) : ℝ) -
         ((((((ys.map (fun x => x - sts_mean ys)).drop
            (i * (xs.length / w))).take (xs.length / w)).sum /
              ((xs.length / w : ℕ) : ℚ) : ℚ)) : ℝ) /
            Real.sqrt ((sts_variance ys : ℚ) : ℝ)) ^ 2 := by
        apply mul_le_mul_of_nonneg_left _ (by positivity)
        apply Finset.sum_le_sum
        intro i _
        exact sts_dist_sq_le cx cy _ (sts_variance xs) _ (sts_variance ys)
          hcx1 hcx16 hcy1 hcy16 hvx0 hvy0
    _ = ∑ i ∈ Finset.range w, ((xs.length / w : ℕ) : ℝ) *
        (((((((xs.map (fun x => x - sts_mean xs)).drop
            (i * (xs.length / w))).take (xs.length / w)).sum /
              ((xs.length / w : ℕ) : ℚ) : ℚ)) : ℝ) /
            Real.sqrt ((sts_variance xs : ℚ) : ℝ) -
         ((((((ys.map (fun x => x - sts_mean ys)).drop
            (i * (xs.length / w))).take (xs.length / w)).sum /
              ((xs.length / w : ℕ) : ℚ) : ℚ)) : ℝ) /
            Real.sqrt ((sts_variance ys : ℚ) : ℝ)) ^ 2 := by
        rw [Finset.mul_sum]
    _ ≤ ∑ i ∈ Finset.range w, ∑ j ∈ Finset.range (xs.length / w),
        (((xs.getD (i * (xs.length / w) + j) 0 - sts_mean xs : ℚ) : ℝ) /
            Real.sqrt ((sts_variance xs : ℚ) : ℝ) -
         ((ys.getD (i * (xs.length / w) + j) 0 - sts_mean ys : ℚ) : ℝ) /
            Real.sqrt ((sts_variance ys : ℚ) : ℝ)) ^ 2 := by
        apply Finset.sum_le_sum
        intro i hi
        have hi' : i < w := Finset.mem_range.mp hi
        have hsegx : i * (xs.length / w) + (xs.length / w) ≤ xs.length := by
          have h1 : (i + 1) * (xs.length / w) ≤ w * (xs.length / w) :=
            Nat.mul_le_mul_right _ hi'
          have h2 : i * (xs.length / w) + (xs.length / w) =
              (i + 1) * (xs.length / w) := by ring
          omega
        have hsegy : i * (xs.length / w) + (xs.length / w) ≤ ys.length := by
          rw [hlen]
          exact hsegx
        rw [seg_norm_mean xs (sts_mean xs) (sts_variance xs) i
          (xs.length / w) hsegx,
          seg_norm_mean ys (sts_mean ys) (sts_variance ys) i
          (xs.length / w) hsegy,
          div_sub_div_same, ← Finset.sum_sub_distrib]
        exact per_segment_cs (xs.length / w)
          (fun j => ((xs.getD (i * (xs.length / w) + j) 0 - sts_mean xs : ℚ) : ℝ) /
            Real.sqrt ((sts_variance xs : ℚ) : ℝ) -
           ((ys.getD (i * (xs.length / w) + j) 0 - sts_mean ys : ℚ) : ℝ) /
            Real.sqrt ((sts_variance ys : ℚ) : ℝ)) hm1
    _ = ∑ k ∈ Finset.range (w * (xs.length / w)),
        (((xs.getD k 0 - sts_mean xs : ℚ) : ℝ) /
            Real.sqrt ((sts_variance xs : ℚ) : ℝ) -
         ((ys.getD k 0 - sts_mean ys : ℚ) : ℝ) /
            Real.sqrt ((sts_variance ys : ℚ) : ℝ)) ^ 2 := by
        exact (sum_range_mul w (xs.length / w)
          (fun k => (((xs.getD k 0 - sts_mean xs : ℚ) : ℝ) /
              Real.sqrt ((sts_variance xs : ℚ) : ℝ) -
            ((ys.getD k 0 - sts_mean ys : ℚ) : ℝ) /
              Real.sqrt ((sts_variance ys : ℚ) : ℝ)) ^ 2)).symm
    _ = ∑ j ∈ Finset.range xs.length,
        (((xs.getD j 0 - sts_mean xs : ℚ) : ℝ) /
            Real.sqrt ((sts_variance xs : ℚ) : ℝ) -
         ((ys.getD j 0 - sts_mean ys : ℚ) : ℝ) /
            Real.sqrt ((sts_variance ys : ℚ) : ℝ)) ^ 2 := by
        rw [← hnwm]

/-- Counterexample to C1 as stated: a raw series whose standard deviation is
below the tolerance is encoded through the constant-series path, which
forgets its shape; paired with a shape-identical non-degenerate series (both
encoded at cardinality 4), the distance exceeds the true normalized Euclidean
distance (which is zero). -/
theorem mindist_lower_bound_counterexample :
    (([0, 0, 1, 1] : List ℚ).length =
      ([0, 0, 1/1000, 1/1000] : List ℚ).length) ∧
    ¬ MindistLeTrueDist [0, 0, 1/1000, 1/1000] [0, 0, 1, 1] 2 4 4 := by
  refine ⟨rfl, ?_⟩
  intro hclaim
  have ha : sts_to_sax [0, 0, 1/1000, 1/1000] 2 4 = some ⟨4, 2, 4, [2, 2]⟩ := by
    norm_num [sts_to_sax, sts_mean, sts_variance, sts_segment_means,
      symbol_for, betaLeDiv, breakpoints, STS_STAT_EPS, STS_MAX_CARDINALITY,
      List.range_succ, List.replicate_succ, List.countP_cons, List.countP_nil,
      abs_lt, abs_le]
  have hb : sts_to_sax [0, 0, 1, 1] 2 4 = some ⟨4, 2, 4, [0, 3]⟩ := by
    norm_num [sts_to_sax, sts_mean, sts_variance, sts_segment_means,
      symbol_for, betaLeDiv, breakpoints, STS_STAT_EPS, STS_MAX_CARDINALITY,
      List.range_succ, List.replicate_succ, List.countP_cons, List.countP_nil,
      abs_lt, abs_le]
  have h := hclaim _ _ ha hb
  have hmd : sts_mindist_sq ⟨4, 2, 4, [2, 2]⟩ ⟨4, 2, 4, [0, 3]⟩ =
      some (1819801 / 2000000) := by
    norm_num [sts_mindist_sq, supportedCard, sts_dist, breakpoints,
      STS_MAX_CARDINALITY, List.getD_cons_zero, List.getD_cons_succ]
  rw [hmd, Option.getD_some] at h
  have hmx : sts_mean [0, 0, 1/1000, 1/1000] = (1/2000 : ℚ) := by
    norm_num [sts_mean]
  have hvx2 : sts_variance [0, 0, 1/1000, 1/1000] = (1/4000000 : ℚ) := by
    norm_num [sts_variance, sts_mean]
  have hmy : sts_mean [0, 0, 1, 1] = (1/2 : ℚ) := by
    norm_num [sts_mean]
  have hvy2 : sts_variance [0, 0, 1, 1] = (1/4 : ℚ) := by
    norm_num [sts_variance, sts_mean]
  rw [hmx, hvx2, hmy, hvy2] at h
  have hsx : Real.sqrt ((1/4000000 : ℚ) : ℝ) = 1/2000 := by
    rw [show ((1/4000000 : ℚ) : ℝ) = (1/2000 : ℝ) ^ 2 by norm_num]
    exact Real.sqrt_sq (by norm_num)
  have hsy : Real.sqrt ((1/4 : ℚ) : ℝ) = 1/2 := by
    rw [show ((1/4 : ℚ) : ℝ) = (1/2 : ℝ) ^ 2 by norm_num]
    exact Real.sqrt_sq (by norm_num)
  rw [hsx, hsy] at h
  have hT : (∑ j ∈ Finset.range ([0, 0, 1/1000, 1/1000] : List ℚ).length,
      (((([0, 0, 1/1000, 1/1000] : List ℚ).getD j 0 - 1/2000 : ℚ) : ℝ) /
          (1/2000 : ℝ) -
        ((([0, 0, 1, 1] : List ℚ).getD j 0 - 1/2 : ℚ) : ℝ) / (1/2 : ℝ)) ^ 2)
      = 0 := by
    show (∑ j ∈ Finset.range 4, _) = 0
    rw [Finset.sum_range_succ, Finset.sum_range_succ, Finset.sum_range_succ,
      Finset.sum_range_succ, Finset.sum_range_zero]
    norm_num [List.getD_cons_zero, List.getD_cons_succ]
  rw [hT, Real.sqrt_zero] at h
  have hpos : 0 < Real.sqrt ((1819801 / 2000000 : ℚ) : ℝ) :=
    Real.sqrt_pos.mpr (by norm_num)
  linarith

/-- Witness for C1 at two concrete non-degenerate series encoded at the
differing supported cardinalities 4 and 8. -/
theorem mindist_lower_bound_witness :
    (([1, 1, 9, 9] : List ℚ).length = ([0, 0, 10, 10] : List ℚ).length ∧
      STS_STAT_EPS ^ 2 ≤ sts_variance [0, 0, 10, 10] ∧
      STS_STAT_EPS ^ 2 ≤ sts_variance [1, 1, 9, 9]) ∧
    MindistLeTrueDist [0, 0, 10, 10] [1, 1, 9, 9] 2 4 8 :=
  ⟨⟨rfl, by norm_num [sts_variance, sts_mean, STS_STAT_EPS],
      by norm_num [sts_variance, sts_mean, STS_STAT_EPS]⟩,
    mindist_lower_bound [0, 0, 10, 10] [1, 1, 9, 9] 2 4 8 rfl
      (by norm_num [sts_variance, sts_mean, STS_STAT_EPS])
      (by norm_num [sts_variance, sts_mean, STS_STAT_EPS])⟩
